import Mathlib

/-!
Shallow embedding of the eqemu-password-hasher engine (src/main.go).

Modelling conventions:
* Go strings and byte slices are modelled as `List Nat`, one element per byte
  (the Go code converts between the two with `[]byte(s)` / `string(b)`, which
  is the identity on the byte level).
* The cryptographic primitives imported from external libraries
  (`crypto/md5`, `crypto/sha1`, `crypto/sha512`, `golang.org/x/crypto/argon2`,
  `golang.org/x/crypto/scrypt`) are not code of this repository; they are
  abstracted as the fields of a `Crypto` structure, so theorems quantify over
  every possible digest/KDF behaviour.
* The random salts drawn with `crypto/rand.Read` are passed as explicit
  arguments (the spec's "salt source" capability), making the functions pure.
* Machine integers: every arithmetic value in the source (bytes, the packed
  24-bit groups, the uint32 parameters) stays far below 2^32, and the only
  shift is a right shift, so plain `Nat` arithmetic coincides with the Go
  `uint`/`uint32` arithmetic; `Int` is used for Go `int` values that the
  source compares against negative numbers (`strings.LastIndex`, `mode`).
-/

/-- Byte values of a Go string literal (all literals in the source are ASCII,
so each char is one byte). -/
def strBytes (s : String) : List Nat := s.data.map Char.toNat

/-- The external cryptographic primitives used by src/main.go, abstracted:
`md5`, `sha1`, `sha512` map a message to its digest bytes; `argon2IDKey`
takes (password, salt, time, memory, threads, keyLen); `scryptKey` takes
(password, salt, N, r, p, keyLen). -/
structure Crypto where
  md5 : List Nat → List Nat
  sha1 : List Nat → List Nat
  sha512 : List Nat → List Nat
  argon2IDKey : List Nat → List Nat → Nat → Nat → Nat → Nat → List Nat
  scryptKey : List Nat → List Nat → Nat → Nat → Nat → Nat → List Nat

/-- One lowercase hexadecimal digit, as emitted by Go `fmt.Sprintf("%x", _)`:
values 0-9 become bytes 48-57 (`0`-`9`), values 10-15 become 97-102 (`a`-`f`). -/
def hexDigit (n : Nat) : Nat := if n < 10 then 48 + n else 87 + n

/-- Lowercase hex of a byte sequence, two digits per byte, high nibble first:
the behaviour of Go `fmt.Sprintf("%x", digest)` on a byte array. -/
def hexBytes : List Nat → List Nat
  | [] => []
  | b :: rest => hexDigit (b / 16) :: hexDigit (b % 16) :: hexBytes rest

/-- src/main.go `hashMD5`: lowercase hex of the MD5 digest of `s`. -/
def hashMD5 (c : Crypto) (s : List Nat) : List Nat := hexBytes (c.md5 s)

/-- src/main.go `hashSHA1`. -/
def hashSHA1 (c : Crypto) (s : List Nat) : List Nat := hexBytes (c.sha1 s)

/-- src/main.go `hashSHA512`. -/
def hashSHA512 (c : Crypto) (s : List Nat) : List Nat := hexBytes (c.sha512 s)

/-- The standard RFC 4648 base64 alphabet used by Go `base64.RawStdEncoding`. -/
def b64Chars : List Nat :=
  strBytes "ABCDEFGHIJKLMNOPQRSTUVWXYZabcdefghijklmnopqrstuvwxyz0123456789+/"

/-- Go `base64.RawStdEncoding.EncodeToString`: standard big-endian base64,
no padding.  Groups of 3 bytes yield 4 symbols; a trailing byte yields 2
symbols and a trailing pair yields 3 symbols. -/
def b64Std : List Nat → List Nat
  | [] => []
  | [a] => [b64Chars.getD (a / 4 % 64) 0, b64Chars.getD (a % 4 * 16) 0]
  | [a, b] => [b64Chars.getD (a / 4 % 64) 0,
      b64Chars.getD ((a % 4 * 16 + b / 16) % 64) 0,
      b64Chars.getD (b % 16 * 4 % 64) 0]
  | a :: b :: c :: rest => b64Chars.getD (a / 4 % 64) 0 ::
      b64Chars.getD ((a % 4 * 16 + b / 16) % 64) 0 ::
      b64Chars.getD ((b % 16 * 4 + c / 64) % 64) 0 ::
      b64Chars.getD (c % 64) 0 :: b64Std rest

/-- src/main.go `hashArgon2`, with the 16 random salt bytes passed in
explicitly: computes the Argon2id key with time cost 2, memory cost 65536 KiB,
1 thread, key length 32, and assembles the PHC string
`$argon2id$v=19$m=65536,t=2,p=1$<b64 salt>$<b64 hash>` (the Go
`fmt.Sprintf` with `memoryCost = 65536`, `timeCost = 2`, `threads = 1`). -/
def hashArgon2 (c : Crypto) (salt password : List Nat) : List Nat :=
  strBytes "$argon2id$v=19$m=65536,t=2,p=1$" ++
    b64Std salt ++ strBytes "$" ++
    b64Std (c.argon2IDKey password salt 2 65536 1 32)

/-- src/main.go `itoa64`: the custom base64 alphabet of libsodium's escrypt,
byte values of `./0123456789ABCDEFGHIJKLMNOPQRSTUVWXYZabcdefghijklmnopqrstuvwxyz`. -/
def itoa64 : List Nat :=
  strBytes "./0123456789ABCDEFGHIJKLMNOPQRSTUVWXYZabcdefghijklmnopqrstuvwxyz"

/-- The loop body of src/main.go `encode64Uint32`, recursing on the number of
iterations: each step emits `itoa64[value & 0x3f]` and shifts `value` right
by 6 bits. -/
def encode64Loop (value : Nat) : Nat → List Nat
  | 0 => []
  | n + 1 => itoa64.getD (value % 64) 0 :: encode64Loop (value / 64) n

/-- src/main.go `encode64Uint32 (value, bits)`: the Go loop
`for i := 0; i < bits; i += 6` runs exactly `ceil(bits/6) = (bits+5)/6`
times, so it is embedded as `encode64Loop` with that iteration count. -/
def encode64Uint32 (value : Nat) (bits : Nat) : List Nat :=
  encode64Loop value ((bits + 5) / 6)

/-- src/main.go `encode64Bytes`: little-endian escrypt base64.  Full groups of
3 bytes are packed as `v = b0 | b1<<8 | b2<<16` and emitted as 4 symbols from
the low 6 bits up; a trailing single byte emits 2 symbols, a trailing pair
emits 3. -/
def encode64Bytes : List Nat → List Nat
  | [] => []
  | [a] => [itoa64.getD (a % 64) 0, itoa64.getD (a / 64 % 64) 0]
  | [a, b] => [itoa64.getD ((a + b * 256) % 64) 0,
      itoa64.getD ((a + b * 256) / 64 % 64) 0,
      itoa64.getD ((a + b * 256) / 4096 % 64) 0]
  | a :: b :: c :: rest => itoa64.getD ((a + b * 256 + c * 65536) % 64) 0 ::
      itoa64.getD ((a + b * 256 + c * 65536) / 64 % 64) 0 ::
      itoa64.getD ((a + b * 256 + c * 65536) / 4096 % 64) 0 ::
      itoa64.getD ((a + b * 256 + c * 65536) / 262144 % 64) 0 ::
      encode64Bytes rest

/-- src/main.go `hashSCrypt`, with the 32 random raw salt bytes passed in
explicitly: escrypt-encodes the raw salt, feeds the ENCODED salt string (not
the raw bytes) to scrypt with N=16384, r=8, p=1, keyLen=32, and assembles
`"$7$" + encode64Uint32(14,6) + encode64Uint32(8,30) + encode64Uint32(1,30)
+ encodedSalt + "$" + encodedHash`. -/
def hashSCrypt (c : Crypto) (rawSalt password : List Nat) : List Nat :=
  strBytes "$7$" ++
    encode64Uint32 14 6 ++ encode64Uint32 8 30 ++ encode64Uint32 1 30 ++
    encode64Bytes rawSalt ++ strBytes "$" ++
    encode64Bytes (c.scryptKey password (encode64Bytes rawSalt) 16384 8 1 32)

/-- Go `strings.LastIndex(string(l), string([c]))` for a one-byte needle:
the byte index of the last occurrence of `c` in `l`, or -1 if absent. -/
def lastIndexOfI (c : Nat) : List Nat → Int
  | [] => -1
  | a :: rest =>
    if lastIndexOfI c rest ≥ 0 then lastIndexOfI c rest + 1
    else if a = c then 0 else -1

/-- src/main.go `verifySCrypt`.  Returns `some b` where the Go function
returns `b`, and `none` where the Go function panics: the slice expression
`storedHash[14:lastDollar]` aborts with "slice bounds out of range" whenever
`3 < lastDollar < 14`, which is reachable (e.g. a stored hash
`$7$AAA$BBBBBBBBBB`). -/
def verifySCrypt (c : Crypto) (storedHash password : List Nat) : Option Bool :=
  if storedHash.length < 14 ∨ ¬ storedHash.take 3 = strBytes "$7$" then
    some false
  else
    let lastDollar := lastIndexOfI 36 storedHash
    if lastDollar ≤ 3 then some false
    else if lastDollar < 14 then none
    else
      let encodedSalt := (storedHash.drop 14).take (lastDollar.toNat - 14)
      let expectedDK := storedHash.drop (lastDollar.toNat + 1)
      some (encode64Bytes (c.scryptKey password encodedSalt 16384 8 1 32)
        == expectedDK)

/-- The error values returned by src/main.go `eqcryptHash`: only
`fmt.Errorf("unsupported encryption mode: %d", mode)`. -/
inductive HashError where
  | unsupportedMode : Int → HashError
deriving DecidableEq

/-- src/main.go `eqcryptHash`: the mode dispatcher.  The two random salt
draws (16 bytes for Argon2, 32 raw bytes for scrypt) are passed in
explicitly; `mode` is a Go `int`, hence `Int`. -/
def eqcryptHash (c : Crypto) (argonSalt scryptSalt : List Nat)
    (username password : List Nat) (mode : Int) : Except HashError (List Nat) :=
  if mode = 1 then .ok (hashMD5 c password)
  else if mode = 2 then .ok (hashMD5 c (password ++ [58] ++ username))
  else if mode = 3 then .ok (hashMD5 c (username ++ [58] ++ password))
  else if mode = 4 then .ok (hashMD5 c (hashMD5 c username ++ hashMD5 c password))
  else if mode = 5 then .ok (hashSHA1 c password)
  else if mode = 6 then .ok (hashSHA1 c (password ++ [58] ++ username))
  else if mode = 7 then .ok (hashSHA1 c (username ++ [58] ++ password))
  else if mode = 8 then .ok (hashSHA1 c (hashSHA1 c username ++ hashSHA1 c password))
  else if mode = 9 then .ok (hashSHA512 c password)
  else if mode = 10 then .ok (hashSHA512 c (password ++ [58] ++ username))
  else if mode = 11 then .ok (hashSHA512 c (username ++ [58] ++ password))
  else if mode = 12 then .ok (hashSHA512 c (hashSHA512 c username ++ hashSHA512 c password))
  else if mode = 13 then .ok (hashArgon2 c argonSalt password)
  else if mode = 14 then .ok (hashSCrypt c scryptSalt password)
  else .error (.unsupportedMode mode)

/-- src/main.go `modeNeedsUsername`: the Go map lookup `modeNeedsUsername[mode]`
(absent keys yield `false`). -/
def modeNeedsUsername (mode : Int) : Bool :=
  mode == 2 || mode == 3 || mode == 4 || mode == 6 || mode == 7 ||
  mode == 8 || mode == 10 || mode == 11 || mode == 12

/-- Index of the first occurrence of `c` in a list, if present. -/
def idxIn (c : Nat) : List Nat → Option Nat
  | [] => none
  | a :: rest => if a = c then some 0 else (idxIn c rest).map (· + 1)

/-- Position of a symbol byte in the escrypt alphabet. -/
def idx64 (c : Nat) : Option Nat := idxIn c itoa64

/-- Modelled from the spec: the repository has no escrypt `decode` function
(the verify path compares re-encoded strings instead), but §4.1 of the spec
specifies one: "`decode` is the exact inverse; ... decoding must reject
strings containing characters outside the 64-symbol alphabet."  This is the
little-endian inverse of `encode64Bytes`: 4 symbols back to 3 bytes, a
trailing pair of symbols to 1 byte, a trailing triple to 2 bytes; any symbol
outside `itoa64` (and the impossible trailing single symbol) is rejected
with `none`. -/
def decode64Bytes : List Nat → Option (List Nat)
  | [] => some []
  | [_] => none
  | [c0, c1] =>
    (idx64 c0).bind (fun i0 => (idx64 c1).bind (fun i1 =>
      some [(i0 + i1 * 64) % 256]))
  | [c0, c1, c2] =>
    (idx64 c0).bind (fun i0 => (idx64 c1).bind (fun i1 => (idx64 c2).bind (fun i2 =>
      some [(i0 + i1 * 64 + i2 * 4096) % 256,
        (i0 + i1 * 64 + i2 * 4096) / 256 % 256])))
  | c0 :: c1 :: c2 :: c3 :: rest =>
    (idx64 c0).bind (fun i0 => (idx64 c1).bind (fun i1 => (idx64 c2).bind (fun i2 =>
      (idx64 c3).bind (fun i3 => (decode64Bytes rest).bind (fun tail =>
        some ((i0 + i1 * 64 + i2 * 4096 + i3 * 262144) % 256 ::
          (i0 + i1 * 64 + i2 * 4096 + i3 * 262144) / 256 % 256 ::
          (i0 + i1 * 64 + i2 * 4096 + i3 * 262144) / 65536 % 256 :: tail))))))

/-- Symbols emitted by `encode64Bytes` for a trailing group, by remainder
mod 3: none for 0, two for a single byte, three for a pair. -/
def tailSymbols : Nat → Nat
  | 0 => 0
  | 1 => 2
  | _ => 3

/-- A concrete `Crypto` instance (constant digests of the right lengths),
used to instantiate the universally quantified theorems on computable
inputs. -/
def trivialCrypto : Crypto where
  md5 := fun _ => List.replicate 16 0
  sha1 := fun _ => List.replicate 20 0
  sha512 := fun _ => List.replicate 64 0
  argon2IDKey := fun _ _ _ _ _ _ => List.replicate 32 0
  scryptKey := fun _ _ _ _ _ _ => List.replicate 32 0

/-! Helper lemmas about the alphabets. -/

theorem itoa64_getD_mem : ∀ k, k < 64 → itoa64.getD k 0 ∈ itoa64 := by decide

theorem idx64_getD : ∀ k, k < 64 → idx64 (itoa64.getD k 0) = some k := by decide

theorem itoa64_not_dollar : 36 ∉ itoa64 := by decide

theorem itoa64_not_pad : 61 ∉ itoa64 := by decide

theorem b64Chars_getD_mem : ∀ k, k < 64 → b64Chars.getD k 0 ∈ b64Chars := by decide

theorem b64Chars_not_pad : 61 ∉ b64Chars := by decide

theorem idxIn_eq_none (c : Nat) : ∀ l : List Nat, c ∉ l → idxIn c l = none := by
  intro l
  induction l with
  | nil => intro _; rfl
  | cons a rest ih =>
    intro h
    simp only [List.mem_cons, not_or] at h
    rw [idxIn, if_neg (fun hac : a = c => h.1 hac.symm), ih h.2]
    rfl

theorem idx64_eq_none (c : Nat) (h : c ∉ itoa64) : idx64 c = none :=
  idxIn_eq_none c itoa64 h

/-! Helper lemmas about `encode64Bytes`. -/

theorem encode64Bytes_length : ∀ src : List Nat,
    (encode64Bytes src).length = src.length / 3 * 4 + tailSymbols (src.length % 3) := by
  intro src
  induction src using encode64Bytes.induct with
  | case1 => rfl
  | case2 a => simp [encode64Bytes, tailSymbols]
  | case3 a b => simp [encode64Bytes, tailSymbols]
  | case4 a b c rest ih =>
    simp only [encode64Bytes, List.length_cons, ih]
    have h3 : (rest.length + 1 + 1 + 1) % 3 = rest.length % 3 := by omega
    have h4 : (rest.length + 1 + 1 + 1) / 3 = rest.length / 3 + 1 := by omega
    rw [h3, h4]
    omega

theorem encode64Bytes_mem : ∀ src : List Nat, ∀ x ∈ encode64Bytes src, x ∈ itoa64 := by
  intro src
  induction src using encode64Bytes.induct with
  | case1 => intro x hx; simp [encode64Bytes] at hx
  | case2 a =>
    intro x hx
    simp only [encode64Bytes, List.mem_cons, List.not_mem_nil, or_false] at hx
    rcases hx with h | h <;> rw [h] <;> exact itoa64_getD_mem _ (by omega)
  | case3 a b =>
    intro x hx
    simp only [encode64Bytes, List.mem_cons, List.not_mem_nil, or_false] at hx
    rcases hx with h | h | h <;> rw [h] <;> exact itoa64_getD_mem _ (by omega)
  | case4 a b c rest ih =>
    intro x hx
    simp only [encode64Bytes, List.mem_cons] at hx
    rcases hx with h | h | h | h | h
    · rw [h]; exact itoa64_getD_mem _ (by omega)
    · rw [h]; exact itoa64_getD_mem _ (by omega)
    · rw [h]; exact itoa64_getD_mem _ (by omega)
    · rw [h]; exact itoa64_getD_mem _ (by omega)
    · exact ih x h

theorem encode64Bytes_no_dollar (src : List Nat) : 36 ∉ encode64Bytes src :=
  fun h => itoa64_not_dollar (encode64Bytes_mem src 36 h)

theorem decode64_encode64 : ∀ x : List Nat, (∀ b ∈ x, b < 256) →
    decode64Bytes (encode64Bytes x) = some x := by
  intro x
  induction x using encode64Bytes.induct with
  | case1 => intro _; rfl
  | case2 a =>
    intro h
    have ha : a < 256 := h a (by simp)
    simp only [encode64Bytes, decode64Bytes,
      idx64_getD _ (by omega : a % 64 < 64),
      idx64_getD _ (by omega : a / 64 % 64 < 64), Option.some_bind,
      Option.some.injEq, List.cons.injEq, and_true]
    omega
  | case3 a b =>
    intro h
    have ha : a < 256 := h a (by simp)
    have hb : b < 256 := h b (by simp)
    simp only [encode64Bytes, decode64Bytes,
      idx64_getD _ (by omega : (a + b * 256) % 64 < 64),
      idx64_getD _ (by omega : (a + b * 256) / 64 % 64 < 64),
      idx64_getD _ (by omega : (a + b * 256) / 4096 % 64 < 64), Option.some_bind,
      Option.some.injEq, List.cons.injEq, and_true]
    omega
  | case4 a b c rest ih =>
    intro h
    have ha : a < 256 := h a (by simp)
    have hb : b < 256 := h b (by simp)
    have hc : c < 256 := h c (by simp)
    have hrest : ∀ b ∈ rest, b < 256 := fun y hy => h y (by simp [hy])
    simp only [encode64Bytes, decode64Bytes,
      idx64_getD _ (by omega : (a + b * 256 + c * 65536) % 64 < 64),
      idx64_getD _ (by omega : (a + b * 256 + c * 65536) / 64 % 64 < 64),
      idx64_getD _ (by omega : (a + b * 256 + c * 65536) / 4096 % 64 < 64),
      idx64_getD _ (by omega : (a + b * 256 + c * 65536) / 262144 % 64 < 64),
      ih hrest, Option.some_bind, Option.some.injEq, List.cons.injEq, and_true]
    refine ⟨by omega, by omega, by omega⟩

theorem idxIn_some_mem (c : Nat) : ∀ l : List Nat, ∀ i, idxIn c l = some i → c ∈ l := by
  intro l
  induction l with
  | nil => intro i h; simp [idxIn] at h
  | cons a rest ih =>
    intro i h
    by_cases hac : a = c
    · exact hac ▸ List.mem_cons_self a rest
    · rw [idxIn, if_neg hac] at h
      rcases Option.map_eq_some'.mp h with ⟨j, hj, _⟩
      exact List.mem_cons_of_mem a (ih j hj)

theorem idx64_some_mem (c : Nat) (i : Nat) (h : idx64 c = some i) : c ∈ itoa64 :=
  idxIn_some_mem c itoa64 i h

theorem decode64_some_mem : ∀ s : List Nat, ∀ y, decode64Bytes s = some y →
    ∀ ch ∈ s, ch ∈ itoa64 := by
  intro s
  induction s using decode64Bytes.induct with
  | case1 => intro y _ ch hch; simp at hch
  | case2 c0 => intro y h; simp [decode64Bytes] at h
  | case3 c0 c1 =>
    intro y h ch hch
    simp only [decode64Bytes, Option.bind_eq_some, Option.some.injEq] at h
    obtain ⟨i0, h0, i1, h1, _⟩ := h
    simp only [List.mem_cons, List.not_mem_nil, or_false] at hch
    rcases hch with rfl | rfl
    · exact idx64_some_mem ch i0 h0
    · exact idx64_some_mem ch i1 h1
  | case4 c0 c1 c2 =>
    intro y h ch hch
    simp only [decode64Bytes, Option.bind_eq_some, Option.some.injEq] at h
    obtain ⟨i0, h0, i1, h1, i2, h2, _⟩ := h
    simp only [List.mem_cons, List.not_mem_nil, or_false] at hch
    rcases hch with rfl | rfl | rfl
    · exact idx64_some_mem ch i0 h0
    · exact idx64_some_mem ch i1 h1
    · exact idx64_some_mem ch i2 h2
  | case5 c0 c1 c2 c3 rest ih =>
    intro y h ch hch
    simp only [decode64Bytes, Option.bind_eq_some, Option.some.injEq] at h
    obtain ⟨i0, h0, i1, h1, i2, h2, i3, h3, tail, htail, _⟩ := h
    simp only [List.mem_cons] at hch
    rcases hch with rfl | rfl | rfl | rfl | hm
    · exact idx64_some_mem ch i0 h0
    · exact idx64_some_mem ch i1 h1
    · exact idx64_some_mem ch i2 h2
    · exact idx64_some_mem ch i3 h3
    · exact ih tail htail ch hm

theorem decode64_rejects (s : List Nat) (h : ∃ ch ∈ s, ch ∉ itoa64) :
    decode64Bytes s = none := by
  obtain ⟨ch, hmem, hbad⟩ := h
  cases hd : decode64Bytes s with
  | none => rfl
  | some y => exact absurd (decode64_some_mem s y hd ch hmem) hbad

/-! Helper lemmas about `lastIndexOfI`. -/

theorem lastIndexOfI_eq_neg (c : Nat) : ∀ l : List Nat, c ∉ l → lastIndexOfI c l = -1 := by
  intro l
  induction l with
  | nil => intro _; rfl
  | cons a rest ih =>
    intro h
    simp only [List.mem_cons, not_or] at h
    rw [lastIndexOfI, ih h.2, if_neg (by decide), if_neg (fun hac : a = c => h.1 hac.symm)]

theorem lastIndexOfI_append (c : Nat) (l1 l2 : List Nat) (h : c ∉ l2) :
    lastIndexOfI c (l1 ++ c :: l2) = l1.length := by
  induction l1 with
  | nil =>
    simp only [List.nil_append]
    rw [lastIndexOfI, lastIndexOfI_eq_neg c l2 h, if_neg (by decide), if_pos rfl]
    rfl
  | cons a l1' ih =>
    simp only [List.cons_append]
    rw [lastIndexOfI, ih, if_pos (Int.natCast_nonneg l1'.length)]
    simp only [List.length_cons]
    push_cast
    ring

/-! Helper lemmas about `encode64Loop` and `encode64Uint32`. -/

theorem encode64Loop_length : ∀ n value, (encode64Loop value n).length = n := by
  intro n
  induction n with
  | zero => intro _; rfl
  | succ n ih => intro v; simp [encode64Loop, ih]

theorem encode64Uint32_length (value bits : Nat) :
    (encode64Uint32 value bits).length = (bits + 5) / 6 :=
  encode64Loop_length _ _

theorem encode64Loop_getD : ∀ n k value, k < n →
    (encode64Loop value n).getD k 0 = itoa64.getD (value / 64 ^ k % 64) 0 := by
  intro n
  induction n with
  | zero => intro k v h; exact absurd h (Nat.not_lt_zero k)
  | succ n ih =>
    intro k v hk
    cases k with
    | zero => simp [encode64Loop]
    | succ k =>
      simp only [encode64Loop, List.getD_cons_succ]
      rw [ih k (v / 64) (by omega), Nat.div_div_eq_div_mul, ← pow_succ']

theorem encode64Loop_mem : ∀ n value, ∀ x ∈ encode64Loop value n, x ∈ itoa64 := by
  intro n
  induction n with
  | zero => intro v x hx; simp [encode64Loop] at hx
  | succ n ih =>
    intro v x hx
    simp only [encode64Loop, List.mem_cons] at hx
    rcases hx with h | h
    · rw [h]; exact itoa64_getD_mem _ (by omega)
    · exact ih (v / 64) x h

/-! Helper lemmas about `b64Std` and `hexBytes`. -/

theorem b64Std_length : ∀ l : List Nat,
    (b64Std l).length = l.length / 3 * 4 + tailSymbols (l.length % 3) := by
  intro l
  induction l using b64Std.induct with
  | case1 => rfl
  | case2 a => simp [b64Std, tailSymbols]
  | case3 a b => simp [b64Std, tailSymbols]
  | case4 a b c rest ih =>
    simp only [b64Std, List.length_cons, ih]
    have h3 : (rest.length + 1 + 1 + 1) % 3 = rest.length % 3 := by omega
    have h4 : (rest.length + 1 + 1 + 1) / 3 = rest.length / 3 + 1 := by omega
    rw [h3, h4]
    omega

theorem b64Std_mem : ∀ l : List Nat, ∀ x ∈ b64Std l, x ∈ b64Chars := by
  intro l
  induction l using b64Std.induct with
  | case1 => intro x hx; simp [b64Std] at hx
  | case2 a =>
    intro x hx
    simp only [b64Std, List.mem_cons, List.not_mem_nil, or_false] at hx
    rcases hx with h | h <;> rw [h] <;> exact b64Chars_getD_mem _ (by omega)
  | case3 a b =>
    intro x hx
    simp only [b64Std, List.mem_cons, List.not_mem_nil, or_false] at hx
    rcases hx with h | h | h <;> rw [h] <;> exact b64Chars_getD_mem _ (by omega)
  | case4 a b c rest ih =>
    intro x hx
    simp only [b64Std, List.mem_cons] at hx
    rcases hx with h | h | h | h | h
    · rw [h]; exact b64Chars_getD_mem _ (by omega)
    · rw [h]; exact b64Chars_getD_mem _ (by omega)
    · rw [h]; exact b64Chars_getD_mem _ (by omega)
    · rw [h]; exact b64Chars_getD_mem _ (by omega)
    · exact ih x h

theorem hexBytes_length : ∀ l : List Nat, (hexBytes l).length = 2 * l.length := by
  intro l
  induction l with
  | nil => rfl
  | cons b rest ih => simp [hexBytes, ih]; ring

theorem hexDigit_mem : ∀ d, d < 16 → hexDigit d ∈ strBytes "0123456789abcdef" := by decide

theorem hexBytes_mem : ∀ l : List Nat, (∀ b ∈ l, b < 256) →
    ∀ x ∈ hexBytes l, x ∈ strBytes "0123456789abcdef" := by
  intro l
  induction l with
  | nil => intro _ x hx; simp [hexBytes] at hx
  | cons b rest ih =>
    intro h x hx
    have hb : b < 256 := h b (by simp)
    simp only [hexBytes, List.mem_cons] at hx
    rcases hx with rfl | rfl | hm
    · exact hexDigit_mem _ (by omega)
    · exact hexDigit_mem _ (by omega)
    · exact ih (fun y hy => h y (by simp [hy])) x hm

/-! Claim theorems. -/

/-- C3: for mode 14 the scrypt KDF is invoked on the custom-base64 ENCODED
salt (never the raw salt bytes), with N=16384, r=8, p=1, keyLen=32, and the
output is exactly `"$7$" ++ encode_uint(14,6) ++ encode_uint(8,30) ++
encode_uint(1,30) ++ encodedSalt ++ "$" ++ encodedHash`; `encode64Uint32`
emits `ceil(bits/6)` symbols, the k-th symbol carrying bits 6k..6k+5 of the
value (least-significant 6 bits first). -/
theorem hashSCrypt_format (c : Crypto) (rawSalt p : List Nat) :
    hashSCrypt c rawSalt p =
      strBytes "$7$" ++ encode64Uint32 14 6 ++ encode64Uint32 8 30 ++
        encode64Uint32 1 30 ++ encode64Bytes rawSalt ++ strBytes "$" ++
        encode64Bytes (c.scryptKey p (encode64Bytes rawSalt) 16384 8 1 32) ∧
    (∀ value bits : Nat, (encode64Uint32 value bits).length = (bits + 5) / 6) ∧
    (∀ value bits k : Nat, k < (bits + 5) / 6 →
      (encode64Uint32 value bits).getD k 0 = itoa64.getD (value / 64 ^ k % 64) 0) :=
  ⟨rfl, encode64Uint32_length,
    fun value bits k hk => encode64Loop_getD ((bits + 5) / 6) k value hk⟩

/-- C3 witness: the format theorem instantiated at a concrete crypto
instance, salt and password, its hypothesis discharged concretely. -/
theorem hashSCrypt_format_witness :
    (encode64Uint32 8 30).length = (30 + 5) / 6 ∧
    (0 : Nat) < (30 + 5) / 6 ∧
    (encode64Uint32 8 30).getD 0 0 = itoa64.getD (8 / 64 ^ 0 % 64) 0 :=
  ⟨(hashSCrypt_format trivialCrypto (List.replicate 32 0) [97]).2.1 8 30,
    by decide,
    (hashSCrypt_format trivialCrypto (List.replicate 32 0) [97]).2.2 8 30 0 (by decide)⟩

/-- C4: modes 1-12 of `eqcryptHash` compute exactly the digest formulas of
the spec's table (`:` is byte 58), always succeed, output lowercase hex of
the digest bytes, and are deterministic: the result is independent of the
random salt draws. -/
theorem eqcryptHash_legacy_modes (c : Crypto) (argonSalt scryptSalt u p : List Nat) :
    eqcryptHash c argonSalt scryptSalt u p 1 = Except.ok (hexBytes (c.md5 p)) ∧
    eqcryptHash c argonSalt scryptSalt u p 2 = Except.ok (hexBytes (c.md5 (p ++ [58] ++ u))) ∧
    eqcryptHash c argonSalt scryptSalt u p 3 = Except.ok (hexBytes (c.md5 (u ++ [58] ++ p))) ∧
    eqcryptHash c argonSalt scryptSalt u p 4 =
      Except.ok (hexBytes (c.md5 (hexBytes (c.md5 u) ++ hexBytes (c.md5 p)))) ∧
    eqcryptHash c argonSalt scryptSalt u p 5 = Except.ok (hexBytes (c.sha1 p)) ∧
    eqcryptHash c argonSalt scryptSalt u p 6 = Except.ok (hexBytes (c.sha1 (p ++ [58] ++ u))) ∧
    eqcryptHash c argonSalt scryptSalt u p 7 = Except.ok (hexBytes (c.sha1 (u ++ [58] ++ p))) ∧
    eqcryptHash c argonSalt scryptSalt u p 8 =
      Except.ok (hexBytes (c.sha1 (hexBytes (c.sha1 u) ++ hexBytes (c.sha1 p)))) ∧
    eqcryptHash c argonSalt scryptSalt u p 9 = Except.ok (hexBytes (c.sha512 p)) ∧
    eqcryptHash c argonSalt scryptSalt u p 10 = Except.ok (hexBytes (c.sha512 (p ++ [58] ++ u))) ∧
    eqcryptHash c argonSalt scryptSalt u p 11 = Except.ok (hexBytes (c.sha512 (u ++ [58] ++ p))) ∧
    eqcryptHash c argonSalt scryptSalt u p 12 =
      Except.ok (hexBytes (c.sha512 (hexBytes (c.sha512 u) ++ hexBytes (c.sha512 p)))) ∧
    (∀ l : List Nat, (∀ b ∈ l, b < 256) → ∀ x ∈ hexBytes l, x ∈ strBytes "0123456789abcdef") ∧
    (∀ m : Int, 1 ≤ m → m ≤ 12 → ∀ argonSalt2 scryptSalt2 : List Nat,
      eqcryptHash c argonSalt scryptSalt u p m = eqcryptHash c argonSalt2 scryptSalt2 u p m) := by
  refine ⟨rfl, rfl, rfl, rfl, rfl, rfl, rfl, rfl, rfl, rfl, rfl, rfl, hexBytes_mem, ?_⟩
  intro m h1 h2 argonSalt2 scryptSalt2
  interval_cases m <;> rfl

/-- C4 witness: the legacy-mode theorem at concrete inputs, with the inner
hypotheses discharged on mode 1 and a concrete byte list. -/
theorem eqcryptHash_legacy_modes_witness :
    eqcryptHash trivialCrypto [7] [8] [116] [104] 1 =
      Except.ok (hexBytes (trivialCrypto.md5 [104])) ∧
    (∀ x ∈ hexBytes [255], x ∈ strBytes "0123456789abcdef") ∧
    eqcryptHash trivialCrypto [7] [8] [116] [104] 1 =
      eqcryptHash trivialCrypto [9] [10] [116] [104] 1 :=
  ⟨(eqcryptHash_legacy_modes trivialCrypto [7] [8] [116] [104]).1,
    (eqcryptHash_legacy_modes trivialCrypto [7] [8] [116] [104]).2.2.2.2.2.2.2.2.2.2.2.2.1
      [255] (by decide),
    (eqcryptHash_legacy_modes trivialCrypto [7] [8] [116] [104]).2.2.2.2.2.2.2.2.2.2.2.2.2
      1 (by decide) (by decide) [9] [10]⟩

/-- C8: `eqcryptHash` returns the `unsupportedMode` error exactly when the
mode lies outside [1,14]; every mode in [1,14] produces a hash. -/
theorem eqcryptHash_unsupported_iff (c : Crypto) (argonSalt scryptSalt u p : List Nat)
    (mode : Int) :
    ((eqcryptHash c argonSalt scryptSalt u p mode =
        Except.error (HashError.unsupportedMode mode)) ↔ (mode < 1 ∨ 14 < mode)) ∧
    (∀ m : Int, 1 ≤ m → m ≤ 14 →
      ∃ out, eqcryptHash c argonSalt scryptSalt u p m = Except.ok out) := by
  constructor
  · constructor
    · intro h
      by_contra hout
      push_neg at hout
      obtain ⟨ha, hb⟩ := hout
      interval_cases mode <;> exact absurd h (by simp [eqcryptHash])
    · intro h
      have e1 : mode ≠ 1 := by omega
      have e2 : mode ≠ 2 := by omega
      have e3 : mode ≠ 3 := by omega
      have e4 : mode ≠ 4 := by omega
      have e5 : mode ≠ 5 := by omega
      have e6 : mode ≠ 6 := by omega
      have e7 : mode ≠ 7 := by omega
      have e8 : mode ≠ 8 := by omega
      have e9 : mode ≠ 9 := by omega
      have e10 : mode ≠ 10 := by omega
      have e11 : mode ≠ 11 := by omega
      have e12 : mode ≠ 12 := by omega
      have e13 : mode ≠ 13 := by omega
      have e14 : mode ≠ 14 := by omega
      unfold eqcryptHash
      rw [if_neg e1, if_neg e2, if_neg e3, if_neg e4, if_neg e5, if_neg e6, if_neg e7,
        if_neg e8, if_neg e9, if_neg e10, if_neg e11, if_neg e12, if_neg e13, if_neg e14]
  · intro m h1 h2
    interval_cases m <;> exact ⟨_, rfl⟩

/-- C8 witness: the dispatch theorem at mode 0 (error) and mode 5 (ok). -/
theorem eqcryptHash_unsupported_iff_witness :
    (eqcryptHash trivialCrypto [1] [2] [3] [4] 0 =
        Except.error (HashError.unsupportedMode 0) ↔ ((0 : Int) < 1 ∨ 14 < (0 : Int))) ∧
    (∃ out, eqcryptHash trivialCrypto [1] [2] [3] [4] 5 = Except.ok out) :=
  ⟨(eqcryptHash_unsupported_iff trivialCrypto [1] [2] [3] [4] 0).1,
    (eqcryptHash_unsupported_iff trivialCrypto [1] [2] [3] [4] 0).2 5 (by decide) (by decide)⟩

/-- C9: `modeNeedsUsername` is true exactly on {2,3,4,6,7,8,10,11,12}, and
for every other mode in [1,14] the hash is independent of the username
argument (same salt draws). -/
theorem modeNeedsUsername_policy :
    (∀ m : Int, modeNeedsUsername m = true ↔
      (m = 2 ∨ m = 3 ∨ m = 4 ∨ m = 6 ∨ m = 7 ∨ m = 8 ∨ m = 10 ∨ m = 11 ∨ m = 12)) ∧
    (∀ (c : Crypto) (argonSalt scryptSalt u1 u2 p : List Nat) (m : Int),
      1 ≤ m → m ≤ 14 → modeNeedsUsername m = false →
      eqcryptHash c argonSalt scryptSalt u1 p m = eqcryptHash c argonSalt scryptSalt u2 p m) := by
  constructor
  · intro m
    simp only [modeNeedsUsername, Bool.or_eq_true, beq_iff_eq]
    tauto
  · intro c argonSalt scryptSalt u1 u2 p m h1 h2 hfalse
    interval_cases m <;> first | rfl | simp [modeNeedsUsername] at hfalse

/-- C9 witness: the policy theorem applied at mode 1 with two different
usernames, hypotheses discharged concretely. -/
theorem modeNeedsUsername_policy_witness :
    (modeNeedsUsername 2 = true ↔
      ((2 : Int) = 2 ∨ (2 : Int) = 3 ∨ (2 : Int) = 4 ∨ (2 : Int) = 6 ∨ (2 : Int) = 7 ∨
        (2 : Int) = 8 ∨ (2 : Int) = 10 ∨ (2 : Int) = 11 ∨ (2 : Int) = 12)) ∧
    eqcryptHash trivialCrypto [1] [2] [65] [66] 1 = eqcryptHash trivialCrypto [1] [2] [67] [66] 1 :=
  ⟨modeNeedsUsername_policy.1 2,
    modeNeedsUsername_policy.2 trivialCrypto [1] [2] [65] [67] [66] 1
      (by decide) (by decide) (by decide)⟩

/-- C5: mode 13 produces the PHC string
`$argon2id$v=19$m=65536,t=2,p=1$ ++ b64(salt) ++ $ ++ b64(hash)` where the
Argon2id key is derived with time cost 2, memory 65536 KiB, 1 thread, 32
output bytes; with a 16-byte salt the base64 portions are 22 and 43 symbols
of the standard RFC 4648 alphabet, never the padding character `=` (61). -/
theorem hashArgon2_format (c : Crypto) (salt p : List Nat)
    (hs : salt.length = 16)
    (hk : (c.argon2IDKey p salt 2 65536 1 32).length = 32) :
    hashArgon2 c salt p =
      strBytes "$argon2id$v=19$m=65536,t=2,p=1$" ++ b64Std salt ++ strBytes "$" ++
        b64Std (c.argon2IDKey p salt 2 65536 1 32) ∧
    (b64Std salt).length = 22 ∧
    (b64Std (c.argon2IDKey p salt 2 65536 1 32)).length = 43 ∧
    (hashArgon2 c salt p).length = 97 ∧
    (∀ x ∈ b64Std salt, x ∈ b64Chars) ∧
    (∀ x ∈ b64Std (c.argon2IDKey p salt 2 65536 1 32), x ∈ b64Chars) ∧
    61 ∉ b64Std salt ∧ 61 ∉ b64Std (c.argon2IDKey p salt 2 65536 1 32) := by
  have l1 : (b64Std salt).length = 22 := by rw [b64Std_length, hs]; rfl
  have l2 : (b64Std (c.argon2IDKey p salt 2 65536 1 32)).length = 43 := by
    rw [b64Std_length, hk]; rfl
  refine ⟨rfl, l1, l2, ?_, b64Std_mem salt, b64Std_mem _,
    fun h => b64Chars_not_pad (b64Std_mem _ _ h),
    fun h => b64Chars_not_pad (b64Std_mem _ _ h)⟩
  have lt : (strBytes "$argon2id$v=19$m=65536,t=2,p=1$").length = 31 := by decide
  have ld : (strBytes "$").length = 1 := by decide
  simp only [hashArgon2, List.length_append, lt, ld, l1, l2]

/-- C5 witness: the Argon2 format theorem at a concrete crypto instance and
a concrete 16-byte salt. -/
theorem hashArgon2_format_witness :
    (hashArgon2 trivialCrypto (List.replicate 16 7) [113]).length = 97 ∧
    61 ∉ b64Std (List.replicate 16 7) :=
  ⟨(hashArgon2_format trivialCrypto (List.replicate 16 7) [113]
      (by decide) (by decide)).2.2.2.1,
    (hashArgon2_format trivialCrypto (List.replicate 16 7) [113]
      (by decide) (by decide)).2.2.2.2.2.2.1⟩

/-- C6: the (spec-modelled) escrypt decoder is the exact inverse of
`encode64Bytes` on byte sequences, and rejects any string containing a
character outside the 64-symbol alphabet. -/
theorem decode64_inverse :
    (∀ x : List Nat, (∀ b ∈ x, b < 256) → decode64Bytes (encode64Bytes x) = some x) ∧
    (∀ s : List Nat, (∃ ch ∈ s, ch ∉ itoa64) → decode64Bytes s = none) :=
  ⟨decode64_encode64, decode64_rejects⟩

/-- C6 witness: round-trips at lengths 0, 1, 2, 3, 4, 31 and 32 (all
remainder classes mod 3), and rejection of a string containing `=` (61). -/
theorem decode64_inverse_witness :
    decode64Bytes (encode64Bytes []) = some [] ∧
    decode64Bytes (encode64Bytes [200]) = some [200] ∧
    decode64Bytes (encode64Bytes [0, 255]) = some [0, 255] ∧
    decode64Bytes (encode64Bytes [1, 2, 3]) = some [1, 2, 3] ∧
    decode64Bytes (encode64Bytes [1, 2, 3, 4]) = some [1, 2, 3, 4] ∧
    decode64Bytes (encode64Bytes (List.range 31)) = some (List.range 31) ∧
    decode64Bytes (encode64Bytes (List.range 32)) = some (List.range 32) ∧
    decode64Bytes [46, 61] = none :=
  ⟨decode64_inverse.1 [] (by decide),
    decode64_inverse.1 [200] (by decide),
    decode64_inverse.1 [0, 255] (by decide),
    decode64_inverse.1 [1, 2, 3] (by decide),
    decode64_inverse.1 [1, 2, 3, 4] (by decide),
    decode64_inverse.1 (List.range 31) (by decide),
    decode64_inverse.1 (List.range 32) (by decide),
    decode64_inverse.2 [46, 61] ⟨61, by decide, by decide⟩⟩

/-- C7: `encode64Bytes` packs each full group of 3 bytes little-endian into
4 alphabet symbols, a trailing byte into exactly 2 symbols (the second
symbol's value below 4, i.e. its upper 4 bits zero), a trailing pair into
exactly 3 symbols; every output symbol lies in the alphabet, so the padding
character `=` (61) never occurs. -/
theorem encode64Bytes_shape :
    (∀ (a b c : Nat) (rest : List Nat), encode64Bytes (a :: b :: c :: rest) =
      itoa64.getD ((a + b * 256 + c * 65536) % 64) 0 ::
        itoa64.getD ((a + b * 256 + c * 65536) / 64 % 64) 0 ::
        itoa64.getD ((a + b * 256 + c * 65536) / 4096 % 64) 0 ::
        itoa64.getD ((a + b * 256 + c * 65536) / 262144 % 64) 0 ::
        encode64Bytes rest) ∧
    (∀ src : List Nat,
      (encode64Bytes src).length = src.length / 3 * 4 + tailSymbols (src.length % 3)) ∧
    (∀ a : Nat, a < 256 →
      encode64Bytes [a] = [itoa64.getD (a % 64) 0, itoa64.getD (a / 64) 0] ∧ a / 64 < 4) ∧
    (∀ a b : Nat, encode64Bytes [a, b] = [itoa64.getD ((a + b * 256) % 64) 0,
      itoa64.getD ((a + b * 256) / 64 % 64) 0, itoa64.getD ((a + b * 256) / 4096 % 64) 0]) ∧
    (∀ src : List Nat, ∀ x ∈ encode64Bytes src, x ∈ itoa64) ∧
    (∀ src : List Nat, 61 ∉ encode64Bytes src) := by
  refine ⟨fun a b c rest => rfl, encode64Bytes_length, ?_, fun a b => rfl,
    encode64Bytes_mem, fun src h => itoa64_not_pad (encode64Bytes_mem src 61 h)⟩
  intro a ha
  constructor
  · show [itoa64.getD (a % 64) 0, itoa64.getD (a / 64 % 64) 0] = _
    rw [Nat.mod_eq_of_lt (show a / 64 < 64 by omega)]
  · omega

/-- C7 witness: the shape theorem applied to the single byte 255. -/
theorem encode64Bytes_shape_witness :
    encode64Bytes [255] = [itoa64.getD (255 % 64) 0, itoa64.getD (255 / 64) 0] ∧
    (255 : Nat) / 64 < 4 :=
  encode64Bytes_shape.2.2.1 255 (by decide)

/-- C10: `encode64Bytes` is injective on byte sequences, its output stays
inside the 64-symbol alphabet, and in particular never contains `$` (36) —
so comparing encoded derived keys is equivalent to comparing the raw keys,
and the `$` written before the hash is the last `$` of a generated string. -/
theorem encode64Bytes_injective :
    (∀ x y : List Nat, (∀ b ∈ x, b < 256) → (∀ b ∈ y, b < 256) →
      encode64Bytes x = encode64Bytes y → x = y) ∧
    (∀ x y : List Nat, (∀ b ∈ x, b < 256) → (∀ b ∈ y, b < 256) →
      ((encode64Bytes x = encode64Bytes y) ↔ x = y)) ∧
    (∀ src : List Nat, ∀ ch ∈ encode64Bytes src, ch ∈ itoa64) ∧
    (∀ src : List Nat, 36 ∉ encode64Bytes src) := by
  have inj : ∀ x y : List Nat, (∀ b ∈ x, b < 256) → (∀ b ∈ y, b < 256) →
      encode64Bytes x = encode64Bytes y → x = y := by
    intro x y hx hy he
    have h1 := decode64_encode64 x hx
    rw [he, decode64_encode64 y hy] at h1
    exact (Option.some_inj.mp h1).symm
  exact ⟨inj, fun x y hx hy => ⟨inj x y hx hy, fun h => h ▸ rfl⟩,
    encode64Bytes_mem, encode64Bytes_no_dollar⟩

/-- C10 witness: injectivity applied to two concrete distinct byte lists
whose encodings are computed, and absence of `$` in a concrete encoding. -/
theorem encode64Bytes_injective_witness :
    ((encode64Bytes [0, 1, 2] = encode64Bytes [0, 1, 2]) ↔ ([0, 1, 2] : List Nat) = [0, 1, 2]) ∧
    36 ∉ encode64Bytes [0, 1, 2] :=
  ⟨encode64Bytes_injective.2.1 [0, 1, 2] [0, 1, 2] (by decide) (by decide),
    encode64Bytes_injective.2.2.2 [0, 1, 2]⟩

/-- C2 is contradicted by the code: `verifySCrypt` panics (modelled `none`)
on a well-formed-looking stored hash whose last `$` falls strictly between
index 3 and index 14 — the Go slice `storedHash[14:lastDollar]` is then out
of range.  The short-string and wrong-tag cases do return `false` as the
claim says. -/
theorem verifySCrypt_panics :
    (∀ (c : Crypto) (pw : List Nat),
      verifySCrypt c (strBytes "$7$AAA$BBBBBBBBBB") pw = none) ∧
    (∀ (c : Crypto) (pw : List Nat),
      verifySCrypt c (strBytes "tooshort") pw = some false) ∧
    (∀ (c : Crypto) (pw : List Nat),
      verifySCrypt c (strBytes "$argon2id$v=19$m=65536,t=2,p=1$AAAA$BBBB") pw = some false) :=
  ⟨fun _ _ => rfl, fun _ _ => rfl, fun _ _ => rfl⟩

/-- The first 14 bytes of every generated scrypt MCF string: `"$7$"`, the
log2N symbol `C` (14), the 5 symbols of r=8 and the 5 symbols of p=1. -/
theorem hashSCrypt_head (c : Crypto) (rawSalt p : List Nat) :
    hashSCrypt c rawSalt p =
      ([36, 55, 36, 67, 54, 46, 46, 46, 46, 47, 46, 46, 46, 46] ++
          encode64Bytes rawSalt) ++
        36 :: encode64Bytes (c.scryptKey p (encode64Bytes rawSalt) 16384 8 1 32) := by
  have h1 : strBytes "$7$" = [36, 55, 36] := rfl
  have h2 : encode64Uint32 14 6 = [67] := rfl
  have h3 : encode64Uint32 8 30 = [54, 46, 46, 46, 46] := rfl
  have h4 : encode64Uint32 1 30 = [47, 46, 46, 46, 46] := rfl
  have h5 : strBytes "$" = [36] := rfl
  simp only [hashSCrypt, h1, h2, h3, h4, h5, List.append_assoc, List.cons_append,
    List.nil_append]

/-- Length of a generated scrypt MCF string: 3+1+5+5+43+1+43 = 101. -/
theorem hashSCrypt_length (c : Crypto) (rawSalt p : List Nat)
    (hsalt : rawSalt.length = 32)
    (hkdf : (c.scryptKey p (encode64Bytes rawSalt) 16384 8 1 32).length = 32) :
    (hashSCrypt c rawSalt p).length = 101 := by
  rw [hashSCrypt_head]
  simp only [List.length_append, List.length_cons]
  rw [encode64Bytes_length, encode64Bytes_length, hsalt, hkdf]
  rfl

/-- The last `$` of a generated scrypt MCF string sits at byte index 57,
right between the encoded salt and the encoded derived key. -/
theorem hashSCrypt_lastDollar (c : Crypto) (rawSalt p : List Nat)
    (hsalt : rawSalt.length = 32) :
    lastIndexOfI 36 (hashSCrypt c rawSalt p) = 57 := by
  rw [hashSCrypt_head,
    lastIndexOfI_append 36 _ _ (encode64Bytes_no_dollar
      (c.scryptKey p (encode64Bytes rawSalt) 16384 8 1 32))]
  simp only [List.length_append, List.length_cons]
  rw [encode64Bytes_length, hsalt]
  rfl

/-- Verification of a freshly generated scrypt hash against the same
password succeeds: the extracted salt substring is exactly the encoded salt
that was fed to the KDF, so the re-derived key re-encodes to the stored
suffix. -/
theorem verify_hashSCrypt (c : Crypto) (rawSalt p : List Nat)
    (hsalt : rawSalt.length = 32)
    (hkdf : (c.scryptKey p (encode64Bytes rawSalt) 16384 8 1 32).length = 32) :
    verifySCrypt c (hashSCrypt c rawSalt p) p = some true := by
  have hS : (encode64Bytes rawSalt).length = 43 := by
    rw [encode64Bytes_length, hsalt]; rfl
  have hhead : ((36 : Nat) :: 55 :: 36 :: 67 :: 54 :: 46 :: 46 :: 46 :: 46 :: 47 ::
      46 :: 46 :: 46 :: 46 :: []).length = 14 := rfl
  have hlen : (hashSCrypt c rawSalt p).length = 101 := hashSCrypt_length c rawSalt p hsalt hkdf
  have htake : (hashSCrypt c rawSalt p).take 3 = strBytes "$7$" := by
    rw [hashSCrypt_head]
    rfl
  rw [verifySCrypt, if_neg (by rw [hlen, htake]; simp)]
  rw [hashSCrypt_lastDollar c rawSalt p hsalt]
  rw [if_neg (by decide), if_neg (by decide)]
  have hdrop : (hashSCrypt c rawSalt p).drop 14 =
      encode64Bytes rawSalt ++
        36 :: encode64Bytes (c.scryptKey p (encode64Bytes rawSalt) 16384 8 1 32) := by
    rw [hashSCrypt_head]
    rfl
  have hsaltpart : ((hashSCrypt c rawSalt p).drop 14).take ((57 : Int).toNat - 14) =
      encode64Bytes rawSalt := by
    rw [hdrop]
    exact List.take_left' hS
  have hdkpart : (hashSCrypt c rawSalt p).drop ((57 : Int).toNat + 1) =
      encode64Bytes (c.scryptKey p (encode64Bytes rawSalt) 16384 8 1 32) := by
    rw [hashSCrypt_head, show ([36, 55, 36, 67, 54, 46, 46, 46, 46, 47, 46, 46, 46, 46] ++
        encode64Bytes rawSalt) ++
        36 :: encode64Bytes (c.scryptKey p (encode64Bytes rawSalt) 16384 8 1 32) =
      (([36, 55, 36, 67, 54, 46, 46, 46, 46, 47, 46, 46, 46, 46] ++
          encode64Bytes rawSalt) ++ [36]) ++
        encode64Bytes (c.scryptKey p (encode64Bytes rawSalt) 16384 8 1 32) from by
      simp [List.append_assoc]]
    refine List.drop_left' ?_
    simp only [List.length_append, List.length_cons, hS]
    rfl
  rw [hsaltpart, hdkpart]
  simp

/-- C1: for every username and password, mode 14 of `eqcryptHash` generates
an scrypt MCF string that starts with `$7$`, has the 101 = 3+1+5+5+43+1+43
characters of the format, and verifies `true` against the same password
(for any 32-byte salt draw and any scrypt KDF producing 32-byte keys). -/
theorem scrypt_roundTrip (c : Crypto) (argonSalt rawSalt u p : List Nat)
    (hsalt : rawSalt.length = 32)
    (hkdf : ∀ pw s : List Nat, (c.scryptKey pw s 16384 8 1 32).length = 32)
    (_hp : p ≠ []) :
    eqcryptHash c argonSalt rawSalt u p 14 = Except.ok (hashSCrypt c rawSalt p) ∧
    (hashSCrypt c rawSalt p).take 3 = strBytes "$7$" ∧
    (hashSCrypt c rawSalt p).length = 101 ∧
    verifySCrypt c (hashSCrypt c rawSalt p) p = some true :=
  ⟨rfl,
    by rw [hashSCrypt_head]; rfl,
    hashSCrypt_length c rawSalt p hsalt (hkdf p (encode64Bytes rawSalt)),
    verify_hashSCrypt c rawSalt p hsalt (hkdf p (encode64Bytes rawSalt))⟩

/-- C1 witness: the round trip at a concrete crypto instance, a concrete
32-byte salt and the password "correcthorse", all hypotheses discharged
concretely. -/
theorem scrypt_roundTrip_witness :
    eqcryptHash trivialCrypto [] (List.range 32) [] (strBytes "correcthorse") 14 =
      Except.ok (hashSCrypt trivialCrypto (List.range 32) (strBytes "correcthorse")) ∧
    (hashSCrypt trivialCrypto (List.range 32) (strBytes "correcthorse")).take 3 =
      strBytes "$7$" ∧
    (hashSCrypt trivialCrypto (List.range 32) (strBytes "correcthorse")).length = 101 ∧
    verifySCrypt trivialCrypto
      (hashSCrypt trivialCrypto (List.range 32) (strBytes "correcthorse"))
      (strBytes "correcthorse") = some true :=
  scrypt_roundTrip trivialCrypto [] (List.range 32) [] (strBytes "correcthorse")
    (by decide) (fun _ _ => rfl) (by decide)
